import Mathlib

/-!
Verification of the wordle-solver decision-tree engine.

This file gives a shallow embedding of the core of the solver
(`include/solver.hh`, `src/solver/*.cc`): the match encoder
`calc_match_val`, the guess ranker (`avg_solutions_per_unique_match`,
`get_best_unique_match_guesses`), the candidate-selection step of the
recursive search `solve(solution_indexes, depth)` together with
`traverse_matches` / `traverse_match` / `mark_solved`, and the input
validation `check_guesses_solutions`.

Machine `double` averages are modelled as exact rationals (`ℚ`); the
quantities involved are small integer ratios for which the `double`
comparisons and the rational comparisons agree.  C++ `std::vector`s are
Lean lists, words (`std::string` of length 5) are `List Char`, and the
node pointer graph is modelled by structural node values (nodes are
never mutated after they are completed and memoised, so value semantics
is faithful).  The recursion of `solve` is fuelled; `solveF fuel …`
returns `none` when the fuel runs out, and agrees with the source for
every terminating execution.
-/

set_option maxRecDepth 4000

namespace WordleSolver

/-- Word length `W` (compile-time constant `NUM_WORD_LETTERS` in `solver.hh`). -/
def NUM_WORD_LETTERS : ℕ := 5

/-- Maximum number of guesses allowed (`NUM_ALLOWED_GUESSES`). -/
def NUM_ALLOWED_GUESSES : ℕ := 6

/-- Number of distinct feedback patterns, `3^W` (`NUM_MATCH_VALS`). -/
def NUM_MATCH_VALS : ℕ := 243

/-- The all-green pattern value `3^W - 1` (`ALL_GREENS_MATCH`). -/
def ALL_GREENS_MATCH : ℕ := 242

/-- Words are five-character strings; we model them as lists of characters. -/
abbrev Word := List Char

/-- The inner yellow scan of `calc_match_val`: find the first position `j`
of the solution that is not yet consumed (`seen_solution[j]` false), holds
the guessed character `c`, and is not itself a green position
(`guess[j] != solution[j]`). -/
def yellowIndex (guess solution : Word) (seen : List Bool) (c : Char) : Option ℕ :=
  (List.range NUM_WORD_LETTERS).find? (fun j =>
    !(seen.getD j false) && (solution.getD j ' ' == c)
      && !(guess.getD j ' ' == solution.getD j ' '))

/-- One iteration of the position loop of `calc_match_val`.  The state is
`(match_val, seen_solution, match_string)`; the multiplier at position `i`
is `3^i` (the source tracks it via `mult *= 3`). -/
def calcMatchStep (guess solution : Word) (st : ℕ × List Bool × List Char) (i : ℕ) :
    ℕ × List Bool × List Char :=
  let c := guess.getD i ' '
  if c = solution.getD i ' ' then
    (st.1 + 2 * 3 ^ i, st.2.1.set i true, st.2.2.set i 'G')
  else
    match yellowIndex guess solution st.2.1 c with
    | some j => (st.1 + 3 ^ i, st.2.1.set j true, st.2.2.set i 'y')
    | none => st

/-- `solver::calc_match_val`.  Returns the base-3 pattern value together with
the five-character pattern string that the source writes into
`m_match_strings[value]`. -/
def calc_match_val (guess solution : Word) : ℕ × List Char :=
  let r := (List.range NUM_WORD_LETTERS).foldl (calcMatchStep guess solution)
    (0, List.replicate NUM_WORD_LETTERS false, List.replicate NUM_WORD_LETTERS '.')
  (r.1, r.2.2)

/-- C2 counterexample: for guess `crate` and solution `trace` the encoder does
not return pattern value 211 with pattern string `yyGyG`; position 1 is a
green (`r` against `r`), not a yellow. -/
theorem calc_match_val_crate_trace_not_211 :
    ¬ ((calc_match_val ['c', 'r', 'a', 't', 'e'] ['t', 'r', 'a', 'c', 'e']).1 = 211 ∧
      (calc_match_val ['c', 'r', 'a', 't', 'e'] ['t', 'r', 'a', 'c', 'e']).2
        = ['y', 'y', 'G', 'y', 'G']) := by
  decide

/-- C2 amended: for guess `crate` and solution `trace`, `calc_match_val`
returns the pattern value 214 and records the pattern string `yGGyG` for that
value (verdicts per position: yellow, green, green, yellow, green;
`1·3^0 + 2·3^1 + 2·3^2 + 1·3^3 + 2·3^4 = 214`). -/
theorem calc_match_val_crate_trace :
    calc_match_val ['c', 'r', 'a', 't', 'e'] ['t', 'r', 'a', 'c', 'e']
      = (214, ['y', 'G', 'G', 'y', 'G']) := by
  decide

/-- C8 counterexample: for guess `allee` and solution `later` the encoder does
not produce the pattern string `yyyG.`; the second `l` of the guess finds no
unconsumed `l` in the solution and is grey. -/
theorem calc_match_val_allee_later_not_yyyG :
    ¬ (calc_match_val ['a', 'l', 'l', 'e', 'e'] ['l', 'a', 't', 'e', 'r']).2
        = ['y', 'y', 'y', 'G', '.'] := by
  decide

/-- C8 amended: for guess `allee` and solution `later` the encoder produces
the pattern string `yy.G.` (yellow `a`, yellow first `l`, grey second `l`,
green `e` at position 3, grey second `e`), with pattern value 58. -/
theorem calc_match_val_allee_later :
    calc_match_val ['a', 'l', 'l', 'e', 'e'] ['l', 'a', 't', 'e', 'r']
      = (58, ['y', 'y', '.', 'G', '.']) := by
  decide

/-- The scan of `avg_solutions_per_unique_match` over the feasible set: the
source walks `solution_indexes` keeping a `seen` array of match values and a
count of unique matches.  We keep the seen values as a list (the array is
used only for membership) together with the unique count. -/
def avgFold (lm : ℕ → ℕ → ℕ) (g : ℕ) (F : List ℕ) : List ℕ × ℕ :=
  F.foldl (fun acc s =>
    let m := lm g s
    if m ∈ acc.1 then acc else (m :: acc.1, acc.2 + 1)) ([], 0)

/-- The numerator and denominator computed by
`solver::avg_solutions_per_unique_match`: the number of feasible solutions
(minus one when the all-greens match occurs, i.e. the guess itself is one of
the feasible solutions) and the number of distinct match values.  The source
divides them as doubles; we keep the exact pair so that the executable
search can compare averages by cross-multiplication, which agrees with the
comparison of the exact quotients.  `lm` is `lookup_match` on the
precomputed matrix. -/
def avgND (lm : ℕ → ℕ → ℕ) (F : List ℕ) (g : ℕ) : ℕ × ℕ :=
  ((if ALL_GREENS_MATCH ∈ (avgFold lm g F).1 then F.length - 1 else F.length),
    (avgFold lm g F).2)

/-- `solver::avg_solutions_per_unique_match` as the exact rational value of
the double it returns. -/
def avg_solutions_per_unique_match (lm : ℕ → ℕ → ℕ) (F : List ℕ) (g : ℕ) : ℚ :=
  ((avgND lm F g).1 : ℚ) / ((avgND lm F g).2 : ℚ)

theorem avgFold_loop_spec (lm : ℕ → ℕ → ℕ) (g : ℕ) :
    ∀ (F : List ℕ) (seen : List ℕ) (c : ℕ), seen.Nodup → c = seen.length →
      (F.foldl (fun acc s =>
          let m := lm g s
          if m ∈ acc.1 then acc else (m :: acc.1, acc.2 + 1)) (seen, c)).1.Nodup ∧
      (F.foldl (fun acc s =>
          let m := lm g s
          if m ∈ acc.1 then acc else (m :: acc.1, acc.2 + 1)) (seen, c)).2 =
        (F.foldl (fun acc s =>
          let m := lm g s
          if m ∈ acc.1 then acc else (m :: acc.1, acc.2 + 1)) (seen, c)).1.length ∧
      (F.foldl (fun acc s =>
          let m := lm g s
          if m ∈ acc.1 then acc else (m :: acc.1, acc.2 + 1)) (seen, c)).1.toFinset =
        seen.toFinset ∪ (F.map (lm g)).toFinset := by
  intro F
  induction F with
  | nil =>
    intro seen c hnd hc
    exact ⟨hnd, hc, by simp⟩
  | cons s t ih =>
    intro seen c hnd hc
    by_cases hm : lm g s ∈ seen
    · have h := ih seen c hnd hc
      simp only [List.foldl_cons, if_pos hm]
      refine ⟨h.1, h.2.1, ?_⟩
      rw [h.2.2]
      ext a
      simp only [Finset.mem_union, List.mem_toFinset, List.map_cons, List.toFinset_cons,
        Finset.mem_insert]
      constructor
      · rintro (ha | ha)
        · exact Or.inl ha
        · exact Or.inr (Or.inr ha)
      · rintro (ha | ha | ha)
        · exact Or.inl ha
        · exact Or.inl (ha ▸ hm)
        · exact Or.inr ha
    · have hnd' : (lm g s :: seen).Nodup := List.nodup_cons.mpr ⟨hm, hnd⟩
      have h := ih (lm g s :: seen) (c + 1) hnd' (by simp [hc])
      simp only [List.foldl_cons, if_neg hm]
      refine ⟨h.1, h.2.1, ?_⟩
      rw [h.2.2]
      ext a
      simp only [Finset.mem_union, List.mem_toFinset, List.mem_cons, List.map_cons,
        List.toFinset_cons, Finset.mem_insert]
      tauto

theorem avgFold_spec (lm : ℕ → ℕ → ℕ) (g : ℕ) (F : List ℕ) :
    (avgFold lm g F).2 = (F.map (lm g)).toFinset.card ∧
      ((avgFold lm g F).1.toFinset = (F.map (lm g)).toFinset) := by
  have h := avgFold_loop_spec lm g F [] 0 List.nodup_nil rfl
  have hfin : (avgFold lm g F).1.toFinset = (F.map (lm g)).toFinset := by
    have := h.2.2
    simpa [avgFold] using this
  refine ⟨?_, hfin⟩
  have hcard : (avgFold lm g F).2 = (avgFold lm g F).1.length := by
    simpa [avgFold] using h.2.1
  have hnd : (avgFold lm g F).1.Nodup := by simpa [avgFold] using h.1
  rw [hcard, ← List.toFinset_card_of_nodup hnd, hfin]

/-- C3: for every feasible set `F` and guess `g`,
`avg_solutions_per_unique_match` equals `(|F| - δ) / U(g, F)` where `U(g, F)`
is the number of distinct match values in the image of `F` under
`match[g, ·]` and `δ = 1` exactly when some `s ∈ F` has the all-greens match
`M - 1 = 242`.  (Stated for all `F`; for `F = []` both sides are `0/0 = 0`.) -/
theorem avg_solutions_per_unique_match_eq (lm : ℕ → ℕ → ℕ) (F : List ℕ) (g : ℕ) :
    avg_solutions_per_unique_match lm F g =
      ((F.length : ℚ) - (if ∃ s ∈ F, lm g s = ALL_GREENS_MATCH then 1 else 0)) /
        ((F.map (lm g)).toFinset.card : ℚ) := by
  have h := avgFold_spec lm g F
  have hmem : ALL_GREENS_MATCH ∈ (avgFold lm g F).1 ↔
      ∃ s ∈ F, lm g s = ALL_GREENS_MATCH := by
    rw [← List.mem_toFinset, h.2, List.mem_toFinset, List.mem_map]
  simp only [avg_solutions_per_unique_match, avgND]
  rw [h.1]
  by_cases hg : ∃ s ∈ F, lm g s = ALL_GREENS_MATCH
  · have hlen : 1 ≤ F.length := by
      obtain ⟨s, hs, _⟩ := hg
      exact List.length_pos.mpr (List.ne_nil_of_mem hs)
    simp only [if_pos (hmem.mpr hg), if_pos hg]
    congr 1
    push_cast [Nat.cast_sub hlen]
    ring
  · simp only [if_neg (fun hc => hg (hmem.mp hc)), if_neg hg]
    norm_num

/-- The clamping of the prune limit performed by `solver::solve(int)`:
`m_prune_limit = min(prune_limit, m_num_valid_guesses - 1)`. -/
def clampPrune (pruneLimit G : ℕ) : ℕ := min pruneLimit (G - 1)

/-- The strict comparator `std::ranges::partial_sort` applies to candidate
pairs: `<` on the projected average.  On the exact
`((numerator, denominator), guess index)` representation the comparison is
by cross-multiplication, which agrees with comparing the exact quotients
whenever the denominators are positive (they are the distinct-match counts
of a non-empty feasible set). -/
def avgLTnd (p q : (ℕ × ℕ) × ℕ) : Prop := p.1.1 * q.1.2 < q.1.1 * p.1.2

instance : DecidableRel avgLTnd := fun p q =>
  inferInstanceAs (Decidable (p.1.1 * q.1.2 < q.1.1 * p.1.2))

/-- The `(avg, guess index)` pairs for all valid guesses in ascending guess
index order, in the exact numerator/denominator representation, as
accumulated by the scan loop of `get_best_unique_match_guesses`. -/
def avgPairsND (lm : ℕ → ℕ → ℕ) (F : List ℕ) (G : ℕ) : List ((ℕ × ℕ) × ℕ) :=
  (List.range G).map (fun g => (avgND lm F g, g))

/-- Read a numerator/denominator candidate pair as its rational value. -/
def castPair (p : (ℕ × ℕ) × ℕ) : ℚ × ℕ := ((p.1.1 : ℚ) / (p.1.2 : ℚ), p.2)

/-- The postcondition the C++ standard gives for
`std::ranges::partial_sort(first, first + M, last)` under the
average-projecting comparator: the output is a permutation of the input,
its first `M` elements are sorted (no later element of the prefix compares
strictly below an earlier one), and no element beyond the first `M`
compares strictly below an element among them.  The order of elements with
equal averages is NOT specified — in particular the library is free to
reorder ties, and libstdc++'s heap-select implementation does. -/
def partialSortConforms (M : ℕ) (l out : List ((ℕ × ℕ) × ℕ)) : Prop :=
  out.Perm l ∧
  (out.take M).Pairwise (fun p q => ¬ avgLTnd q p) ∧
  ∀ p ∈ out.take M, ∀ q ∈ out.drop M, ¬ avgLTnd q p

instance (M : ℕ) (l out : List ((ℕ × ℕ) × ℕ)) :
    Decidable (partialSortConforms M l out) := by
  unfold partialSortConforms
  exact inferInstance

/-- One concrete conforming library behaviour, used to instantiate the
executable pipeline: a full sort by the strict average comparator.  Like
libstdc++'s heap-select it does not preserve the relative order of tied
elements (inserting behind equal elements reverses ties). -/
def libPartialSort (l : List ((ℕ × ℕ) × ℕ)) (_M : ℕ) : List ((ℕ × ℕ) × ℕ) :=
  List.insertionSort avgLTnd l

/-- `solver::get_best_unique_match_guesses`.  Scans guesses in ascending
index order; on the first guess with average below one (numerator smaller
than denominator) it returns that guess alone (early exit).  Otherwise it
calls `std::ranges::partial_sort(ret, ret.begin() + m_prune_limit + 1)`
projected on the average and resizes to `m_prune_limit`.  The library sort
is a parameter `psort` (receiving the pair list and the sorted-prefix
length `m_prune_limit + 1`) because the C++ standard does not specify the
order of tied elements; theorems about this branch assume only the
`partialSortConforms` contract. -/
def get_best_unique_match_guesses
    (psort : List ((ℕ × ℕ) × ℕ) → ℕ → List ((ℕ × ℕ) × ℕ))
    (lm : ℕ → ℕ → ℕ) (F : List ℕ) (pruneLimit G : ℕ) : List ((ℕ × ℕ) × ℕ) :=
  match (List.range G).find?
      (fun g => decide ((avgND lm F g).1 < (avgND lm F g).2)) with
  | some g => [(avgND lm F g, g)]
  | none => (psort (avgPairsND lm F G) (pruneLimit + 1)).take pruneLimit

theorem one_le_avgFold_count (lm : ℕ → ℕ → ℕ) (g : ℕ) (F : List ℕ) (h : F ≠ []) :
    1 ≤ (avgFold lm g F).2 := by
  rw [(avgFold_spec lm g F).1]
  rcases F with _ | ⟨s, t⟩
  · exact absurd rfl h
  · refine Finset.card_pos.mpr ⟨lm g s, ?_⟩
    simp

theorem avgND_lt_one_iff (lm : ℕ → ℕ → ℕ) (F : List ℕ) (g : ℕ) (h : F ≠ []) :
    (avgND lm F g).1 < (avgND lm F g).2 ↔
      avg_solutions_per_unique_match lm F g < 1 := by
  have hden : 0 < ((avgND lm F g).2 : ℚ) := by
    have := one_le_avgFold_count lm g F h
    simp only [avgND]
    exact_mod_cast this
  unfold avg_solutions_per_unique_match
  rw [div_lt_one hden]
  exact_mod_cast Iff.rfl

theorem not_avgLTnd_iff (p q : (ℕ × ℕ) × ℕ) (hp : 1 ≤ p.1.2) (hq : 1 ≤ q.1.2) :
    ¬ avgLTnd q p ↔ (castPair p).1 ≤ (castPair q).1 := by
  have hp' : (0 : ℚ) < (p.1.2 : ℚ) := by exact_mod_cast hp
  have hq' : (0 : ℚ) < (q.1.2 : ℚ) := by exact_mod_cast hq
  unfold avgLTnd castPair
  simp only [not_lt]
  rw [div_le_div_iff hp' hq']
  constructor
  · intro h
    exact_mod_cast h
  · intro h
    exact_mod_cast h

theorem pairwise_take_drop_dominance {α : Type} (S : α → α → Prop) :
    ∀ (l : List α) (K : ℕ),
      (l.take (K + 1)).Pairwise S →
      (∀ p ∈ l.take (K + 1), ∀ q ∈ l.drop (K + 1), S p q) →
      ∀ p ∈ l.take K, ∀ q ∈ l.drop K, S p q := by
  intro l
  induction l with
  | nil =>
    intro K _ _ p hp
    simp at hp
  | cons a t ih =>
    intro K hpw hdom p hp q hq
    cases K with
    | zero => simp at hp
    | succ k =>
      rw [List.take_succ_cons] at hp
      rw [List.drop_succ_cons] at hq
      rw [List.take_succ_cons, List.pairwise_cons] at hpw
      rcases List.mem_cons.mp hp with hpa | hpt
      · rw [hpa]
        have hqt : q ∈ t := List.mem_of_mem_drop hq
        rw [← List.take_append_drop (k + 1) t] at hqt
        rcases List.mem_append.mp hqt with hq1 | hq2
        · exact hpw.1 q hq1
        · exact hdom a (List.mem_cons_self a _) q hq2
      · exact ih k hpw.2
          (fun p2 hp2 q2 hq2 => hdom p2 (List.mem_cons_of_mem a hp2) q2 hq2)
          p hpt q hq

/-- C4 counterexample: with the constant-zero match matrix on two feasible
solutions and prune limit 1 (so `K = min(1, G - 1) = 1`), both guesses tie
at average 2, and the claimed stable ascending-index tie-break would return
guess 0.  But the reversed pair order is a conforming result of
`std::ranges::partial_sort` — indeed the one libstdc++'s heap-select
produces for two tied elements (`make_heap` leaves them in place,
`sort_heap` swaps them) — and under that library behaviour
`get_best_unique_match_guesses` returns guess 1, never guess 0.  The
ascending-index tie-break is therefore not a property of the program. -/
theorem get_best_unique_match_guesses_tie_break_not_stable :
    partialSortConforms 2 (avgPairsND (fun _ _ => 0) [0, 1] 2)
        [((2, 1), 1), ((2, 1), 0)] ∧
    avg_solutions_per_unique_match (fun _ _ => 0) [0, 1] 0 =
      avg_solutions_per_unique_match (fun _ _ => 0) [0, 1] 1 ∧
    get_best_unique_match_guesses (fun _ _ => [((2, 1), 1), ((2, 1), 0)])
        (fun _ _ => 0) [0, 1] (clampPrune 1 2) 2 = [((2, 1), 1)] ∧
    ∀ p ∈ get_best_unique_match_guesses (fun _ _ => [((2, 1), 1), ((2, 1), 0)])
        (fun _ _ => 0) [0, 1] (clampPrune 1 2) 2, p.2 ≠ 0 := by
  refine ⟨by decide, ?_, by decide, by decide⟩
  have h0 : avgND (fun _ _ => 0) [0, 1] 0 = (2, 1) := by decide
  have h1 : avgND (fun _ _ => 0) [0, 1] 1 = (2, 1) := by decide
  simp only [avg_solutions_per_unique_match]
  rw [h0, h1]

/-- C4 amended: when no guess has average below one (on a non-empty
feasible set), `get_best_unique_match_guesses` returns `K` guesses whose
averages are collectively the smallest, where `K = min(prune_limit, G - 1)`
as set by `solve(int)`: for every library behaviour satisfying the
`std::ranges::partial_sort` contract, the result has length `K`, is sorted
by non-decreasing average, and splits off a remainder of the candidate
pairs every one of whose averages is at least every selected average.
Which guesses are selected among equal averages is unspecified by the
source (the contract does not order ties), so no ascending-index tie-break
is asserted. -/
theorem get_best_unique_match_guesses_top_k
    (psort : List ((ℕ × ℕ) × ℕ) → ℕ → List ((ℕ × ℕ) × ℕ))
    (lm : ℕ → ℕ → ℕ) (F : List ℕ) (pruneLimit G : ℕ) (hF : F ≠ [])
    (h : ∀ g, g < G → 1 ≤ avg_solutions_per_unique_match lm F g)
    (hps : partialSortConforms (clampPrune pruneLimit G + 1) (avgPairsND lm F G)
      (psort (avgPairsND lm F G) (clampPrune pruneLimit G + 1))) :
    (get_best_unique_match_guesses psort lm F (clampPrune pruneLimit G) G).length =
        clampPrune pruneLimit G ∧
    (get_best_unique_match_guesses psort lm F (clampPrune pruneLimit G) G).Pairwise
        (fun p q => (castPair p).1 ≤ (castPair q).1) ∧
    ∃ rest,
      ((get_best_unique_match_guesses psort lm F (clampPrune pruneLimit G) G)
          ++ rest).Perm (avgPairsND lm F G) ∧
      ∀ p ∈ get_best_unique_match_guesses psort lm F (clampPrune pruneLimit G) G,
        ∀ q ∈ rest, (castPair p).1 ≤ (castPair q).1 := by
  have hnone : (List.range G).find?
      (fun g => decide ((avgND lm F g).1 < (avgND lm F g).2)) = none := by
    rw [List.find?_eq_none]
    intro g hg
    simp only [decide_eq_true_eq, Bool.not_eq_true]
    rw [avgND_lt_one_iff lm F g hF]
    exact not_lt.mpr (h g (List.mem_range.mp hg))
  have hres : get_best_unique_match_guesses psort lm F (clampPrune pruneLimit G) G =
      (psort (avgPairsND lm F G) (clampPrune pruneLimit G + 1)).take
        (clampPrune pruneLimit G) := by
    unfold get_best_unique_match_guesses
    rw [hnone]
  have hlenout : (psort (avgPairsND lm F G) (clampPrune pruneLimit G + 1)).length = G := by
    rw [hps.1.length_eq]
    simp [avgPairsND]
  have hKle : clampPrune pruneLimit G ≤ G :=
    le_trans (Nat.min_le_right _ _) (Nat.sub_le G 1)
  have hdens : ∀ q ∈ psort (avgPairsND lm F G) (clampPrune pruneLimit G + 1),
      1 ≤ q.1.2 := by
    intro q hq
    have hq2 : q ∈ avgPairsND lm F G := hps.1.mem_iff.mp hq
    obtain ⟨g, _, rfl⟩ := List.mem_map.mp hq2
    exact one_le_avgFold_count lm g F hF
  refine ⟨?_, ?_, ?_⟩
  · rw [hres, List.length_take, hlenout]
    exact Nat.min_eq_left hKle
  · rw [hres]
    have hpfx : (psort (avgPairsND lm F G) (clampPrune pruneLimit G + 1)).take
        (clampPrune pruneLimit G) =
        ((psort (avgPairsND lm F G) (clampPrune pruneLimit G + 1)).take
          (clampPrune pruneLimit G + 1)).take (clampPrune pruneLimit G) := by
      rw [List.take_take]
      congr 1
      exact (Nat.min_eq_left (Nat.le_succ _)).symm
    rw [hpfx]
    refine List.Pairwise.imp_of_mem ?_
      (List.Pairwise.sublist (List.take_sublist _ _) hps.2.1)
    intro p q hp hq hpq
    have hp2 := List.mem_of_mem_take (List.mem_of_mem_take hp)
    have hq2 := List.mem_of_mem_take (List.mem_of_mem_take hq)
    exact (not_avgLTnd_iff p q (hdens p hp2) (hdens q hq2)).mp hpq
  · refine ⟨(psort (avgPairsND lm F G) (clampPrune pruneLimit G + 1)).drop
      (clampPrune pruneLimit G), ?_, ?_⟩
    · rw [hres, List.take_append_drop]
      exact hps.1
    · intro p hp q hq
      rw [hres] at hp
      have hS := pairwise_take_drop_dominance (fun p q => ¬ avgLTnd q p)
        (psort (avgPairsND lm F G) (clampPrune pruneLimit G + 1))
        (clampPrune pruneLimit G) hps.2.1 hps.2.2 p hp q hq
      exact (not_avgLTnd_iff p q (hdens p (List.mem_of_mem_take hp))
        (hdens q (List.mem_of_mem_drop hq))).mp hS

/-- C4 amended witness: the theorem applied to the tied two-guess instance
with the libstdc++-style tie-reversing conforming sort: the result is
[((2,1),1)], of length 1, sorted, and its average (2) is at most the
remaining pair's average (2). -/
theorem get_best_unique_match_guesses_top_k_witness :
    (get_best_unique_match_guesses (fun _ _ => [((2, 1), 1), ((2, 1), 0)])
        (fun _ _ => 0) [0, 1] (clampPrune 1 2) 2).length = clampPrune 1 2 ∧
    (get_best_unique_match_guesses (fun _ _ => [((2, 1), 1), ((2, 1), 0)])
        (fun _ _ => 0) [0, 1] (clampPrune 1 2) 2).Pairwise
        (fun p q => (castPair p).1 ≤ (castPair q).1) ∧
    ∃ rest,
      ((get_best_unique_match_guesses (fun _ _ => [((2, 1), 1), ((2, 1), 0)])
          (fun _ _ => 0) [0, 1] (clampPrune 1 2) 2) ++ rest).Perm
        (avgPairsND (fun _ _ => 0) [0, 1] 2) ∧
      ∀ p ∈ get_best_unique_match_guesses (fun _ _ => [((2, 1), 1), ((2, 1), 0)])
          (fun _ _ => 0) [0, 1] (clampPrune 1 2) 2,
        ∀ q ∈ rest, (castPair p).1 ≤ (castPair q).1 :=
  get_best_unique_match_guesses_top_k (fun _ _ => [((2, 1), 1), ((2, 1), 0)])
    (fun _ _ => 0) [0, 1] 1 2 (by decide)
    (by
      intro g hg
      have hnd : avgND (fun _ _ => 0) [0, 1] g = (2, 1) := by
        interval_cases g <;> decide
      simp only [avg_solutions_per_unique_match, hnd]
      norm_num)
    (by decide)

/-- C7: if some guess has average below one (on a non-empty feasible set),
`get_best_unique_match_guesses` returns a one-element list `[(avg, g)]`
whose entry has average below one (immediate early exit, ignoring the prune
limit and never reaching the library sort, whence the statement holds for
every `psort`; the guess returned is the first such in index order). -/
theorem get_best_unique_match_guesses_early_exit
    (psort : List ((ℕ × ℕ) × ℕ) → ℕ → List ((ℕ × ℕ) × ℕ))
    (lm : ℕ → ℕ → ℕ) (F : List ℕ)
    (pruneLimit G g : ℕ) (hF : F ≠ []) (hg : g < G)
    (ha : avg_solutions_per_unique_match lm F g < 1) :
    ∃ g', g' < G ∧ avg_solutions_per_unique_match lm F g' < 1 ∧
      get_best_unique_match_guesses psort lm F pruneLimit G =
        [(avgND lm F g', g')] := by
  rcases hf : (List.range G).find?
      (fun g => decide ((avgND lm F g).1 < (avgND lm F g).2)) with _ | g'
  · exfalso
    have := List.find?_eq_none.mp hf g (List.mem_range.mpr hg)
    simp only [decide_eq_true_eq] at this
    exact this ((avgND_lt_one_iff lm F g hF).mpr ha)
  · refine ⟨g', List.mem_range.mp (List.mem_of_find?_eq_some hf), ?_, ?_⟩
    · rw [← avgND_lt_one_iff lm F g' hF]
      have := List.find?_some hf
      simpa using this
    · unfold get_best_unique_match_guesses
      rw [hf]

/-- C7 witness: with a matrix whose guess 0 gives the all-greens match to
solution 0 and a distinct match to solution 1, guess 0 has average one half
and the ranker early-exits with it (here under the concrete library sort
`libPartialSort`, which the early exit never reaches). -/
theorem get_best_unique_match_guesses_early_exit_witness :
    ∃ g', g' < 2 ∧
      avg_solutions_per_unique_match (fun _ s => if s = 0 then 242 else 1) [0, 1] g' < 1 ∧
      get_best_unique_match_guesses libPartialSort
          (fun _ s => if s = 0 then 242 else 1) [0, 1] 5 2 =
        [(avgND (fun _ s => if s = 0 then 242 else 1) [0, 1] g', g')] :=
  get_best_unique_match_guesses_early_exit libPartialSort
    (fun _ s => if s = 0 then 242 else 1)
    [0, 1] 5 2 0 (by decide) (by decide)
    (by
      have hnd : avgND (fun _ s => if s = 0 then 242 else 1) [0, 1] 0 = (1, 2) := by
        decide
      simp only [avg_solutions_per_unique_match, hnd]
      norm_num)

/-- `solver::node`, the decision-tree vertex.  `total_depth`, `solved_count`
and `min_depth` are C++ `int`s but are only ever increased from zero, so we
model them as naturals; `children` holds the child subtrees by value (nodes
are never mutated once complete, so the pointer graph is faithfully
represented by values). -/
structure Node where
  guess_index : ℕ
  total_depth : ℕ
  solved_count : ℕ
  min_depth : ℕ
  is_leaf : Bool
  children : List Node
  leaves : List ℕ

/-- The default-initialised node, as produced by `new node[num_guesses]`
(all counters zero, `is_leaf` false, empty vectors). -/
def dnode : Node :=
  ⟨0, 0, 0, 0, false, [], []⟩

/-- `node::average_num_guesses`: zero when nothing was solved, otherwise
`total_depth / solved_count`, as the exact value of the returned double. -/
def average_num_guesses (n : Node) : ℚ :=
  if n.solved_count = 0 then 0 else (n.total_depth : ℚ) / (n.solved_count : ℚ)

/-- C10: `average_num_guesses` is total: it returns 0 when
`solved_count = 0` and `total_depth / solved_count` otherwise, so the
candidate-selection step never divides by zero; a candidate with
`solved_count = 0` compares as having the minimal possible average (no
node's average is below zero). -/
theorem average_num_guesses_total (n : Node) :
    (n.solved_count = 0 → average_num_guesses n = 0) ∧
    (n.solved_count ≠ 0 →
      average_num_guesses n = (n.total_depth : ℚ) / (n.solved_count : ℚ)) ∧
    (n.solved_count = 0 → ∀ m : Node, average_num_guesses n ≤ average_num_guesses m) := by
  refine ⟨fun h => by simp [average_num_guesses, h],
    fun h => by simp [average_num_guesses, h], fun h m => ?_⟩
  have h0 : average_num_guesses n = 0 := by simp [average_num_guesses, h]
  rw [h0]
  unfold average_num_guesses
  split
  · exact le_refl 0
  · positivity

/-- C10 witness: the theorem applied to a concrete unsolved node and a
concrete solved node. -/
theorem average_num_guesses_total_witness :
    average_num_guesses dnode = 0 ∧
      average_num_guesses dnode ≤ average_num_guesses ⟨3, 7, 2, 1, true, [], [4]⟩ :=
  ⟨(average_num_guesses_total dnode).1 rfl,
    (average_num_guesses_total dnode).2.2 rfl ⟨3, 7, 2, 1, true, [], [4]⟩⟩

/-- The average-number-of-guesses of a node as an exact
numerator/denominator pair: `0/1` for an unsolved node, otherwise
`total_depth / solved_count`.  The executable selection step compares these
by cross-multiplication, which agrees with comparing the values of
`average_num_guesses`. -/
def navg (n : Node) : ℕ × ℕ :=
  if n.solved_count = 0 then (0, 1) else (n.total_depth, n.solved_count)

/-- Strict average comparison used by `std::ranges::min_element` over the
candidate block (the projection is `node::average_num_guesses`). -/
def navgLT (a b : Node) : Prop := (navg a).1 * (navg b).2 < (navg b).1 * (navg a).2

instance : DecidableRel navgLT := fun a b =>
  inferInstanceAs (Decidable ((navg a).1 * (navg b).2 < (navg b).1 * (navg a).2))

theorem navgLT_iff (a b : Node) :
    navgLT a b ↔ average_num_guesses a < average_num_guesses b := by
  have hpos : ∀ n : Node, 0 < ((navg n).2 : ℚ) := by
    intro n
    unfold navg
    split
    · norm_num
    · rename_i h
      exact_mod_cast Nat.pos_of_ne_zero h
  have hval : ∀ n : Node, average_num_guesses n = ((navg n).1 : ℚ) / ((navg n).2 : ℚ) := by
    intro n
    unfold average_num_guesses navg
    split
    · norm_num
    · rfl
  rw [hval a, hval b, div_lt_div_iff (hpos a) (hpos b), navgLT]
  constructor
  · intro h
    exact_mod_cast h
  · intro h
    exact_mod_cast h

/-- The depth-budget predicate of the recursive `solve`:
`depth + subtree.min_depth <= NUM_ALLOWED_GUESSES`. -/
def withinDepthB (depth : ℕ) (n : Node) : Bool :=
  depth + n.min_depth ≤ NUM_ALLOWED_GUESSES

/-- The index of the candidate chosen by the selection step of
`solver::solve(solution_indexes, depth)`: among block positions whose node
passes the depth budget, the first position attaining the minimum
`average_num_guesses` (the semantics of `std::ranges::min_element` over the
filtered view); slot 0 if the filtered view is empty. -/
def chooseIdx (depth : ℕ) (l : List Node) : ℕ :=
  match (List.range l.length).filter (fun i => withinDepthB depth (l.getD i dnode)) with
  | [] => 0
  | i :: rest => rest.foldl (fun b j =>
      if navgLT (l.getD j dnode) (l.getD b dnode) then j else b) i

/-- The final selection of `solver::solve(solution_indexes, depth)`: pick
the chosen node, swap it into slot 0 of the block (`std::swap(best,
subtrees[0])`), and return the pointer to slot 0.  The first component is
the node the returned pointer refers to; the second is the block after the
swap. -/
def selectAndPlace (depth : ℕ) (l : List Node) : Node × List Node :=
  let i := chooseIdx depth l
  let chosen := l.getD i dnode
  (chosen, (l.set i (l.getD 0 dnode)).set 0 chosen)

theorem foldMin_spec (k : ℕ → ℚ) :
    ∀ (rest : List ℕ) (i : ℕ), (i :: rest).Pairwise (· < ·) →
      (rest.foldl (fun b j => if k j < k b then j else b) i) ∈ (i :: rest) ∧
      (∀ j ∈ i :: rest, k (rest.foldl (fun b j => if k j < k b then j else b) i) ≤ k j) ∧
      (∀ j ∈ i :: rest, j < rest.foldl (fun b j => if k j < k b then j else b) i →
        k (rest.foldl (fun b j => if k j < k b then j else b) i) < k j) := by
  intro rest
  induction rest with
  | nil =>
    intro i _
    refine ⟨List.mem_singleton.mpr rfl, ?_, ?_⟩
    · intro j hj
      rw [List.mem_singleton.mp hj]
      exact le_refl (k i)
    · intro j hj hlt
      rw [List.mem_singleton.mp hj] at hlt
      exact absurd hlt (lt_irrefl _)
  | cons j' rt ih =>
    intro i hpw
    have hij' : i < j' := (List.pairwise_cons.mp hpw).1 j' (List.mem_cons_self j' rt)
    have hirt : ∀ x ∈ rt, i < x := fun x hx =>
      (List.pairwise_cons.mp hpw).1 x (List.mem_cons_of_mem j' hx)
    have hpw' : (j' :: rt).Pairwise (· < ·) := (List.pairwise_cons.mp hpw).2
    have hj'rt : ∀ x ∈ rt, j' < x := fun x hx => (List.pairwise_cons.mp hpw').1 x hx
    have hpwrt : rt.Pairwise (· < ·) := (List.pairwise_cons.mp hpw').2
    by_cases hc : k j' < k i
    · have hnext : ((j' :: rt)).Pairwise (· < ·) := hpw'
      have h := ih j' hnext
      simp only [List.foldl_cons, if_pos hc]
      refine ⟨?_, ?_, ?_⟩
      · rcases List.mem_cons.mp h.1 with hm | hm
        · exact List.mem_cons_of_mem i (by rw [hm]; exact List.mem_cons_self j' rt)
        · exact List.mem_cons_of_mem i (List.mem_cons_of_mem j' hm)
      · intro j hj
        rcases List.mem_cons.mp hj with rfl | hj2
        · exact le_of_lt (lt_of_le_of_lt (h.2.1 j' (List.mem_cons_self j' rt)) hc)
        · exact h.2.1 j hj2
      · intro j hj hlt
        rcases List.mem_cons.mp hj with rfl | hj2
        · exact lt_of_le_of_lt (h.2.1 j' (List.mem_cons_self j' rt)) hc
        · exact h.2.2 j hj2 hlt
    · have hnext : ((i :: rt)).Pairwise (· < ·) :=
        List.pairwise_cons.mpr ⟨hirt, hpwrt⟩
      have h := ih i hnext
      simp only [List.foldl_cons, if_neg hc]
      set m := rt.foldl (fun b j => if k j < k b then j else b) i with hm
      refine ⟨?_, ?_, ?_⟩
      · rcases List.mem_cons.mp h.1 with hm2 | hm2
        · exact hm2 ▸ List.mem_cons_self i (j' :: rt)
        · exact List.mem_cons_of_mem i (List.mem_cons_of_mem j' hm2)
      · intro j hj
        rcases List.mem_cons.mp hj with hji | hj2
        · rw [hji]
          exact h.2.1 i (List.mem_cons_self i rt)
        · rcases List.mem_cons.mp hj2 with hjj | hj3
          · rw [hjj]
            exact le_trans (h.2.1 i (List.mem_cons_self i rt)) (not_lt.mp hc)
          · exact h.2.1 j (List.mem_cons_of_mem i hj3)
      · intro j hj hlt
        rcases List.mem_cons.mp hj with hji | hj2
        · rw [hji] at hlt ⊢
          exact h.2.2 i (List.mem_cons_self i rt) hlt
        · rcases List.mem_cons.mp hj2 with hjj | hj3
          · rw [hjj] at hlt ⊢
            rcases List.mem_cons.mp h.1 with hm2 | hm2
            · exfalso
              rw [hm2] at hlt
              exact absurd hlt (lt_asymm hij')
            · exact lt_of_lt_of_le
                (h.2.2 i (List.mem_cons_self i rt) (hirt m hm2)) (not_lt.mp hc)
          · exact h.2.2 j (List.mem_cons_of_mem i hj3) hlt

theorem foldSelect_congr (l : List Node) :
    ∀ (rest : List ℕ) (i : ℕ),
      rest.foldl (fun b j => if navgLT (l.getD j dnode) (l.getD b dnode) then j else b) i =
        rest.foldl (fun b j =>
          if average_num_guesses (l.getD j dnode) < average_num_guesses (l.getD b dnode)
          then j else b) i := by
  intro rest
  induction rest with
  | nil => intro i; rfl
  | cons j' rt ih =>
    intro i
    simp only [List.foldl_cons]
    rw [if_congr (navgLT_iff _ _) rfl rfl]
    exact ih _

theorem set_zero_getD (v dflt : Node) :
    ∀ m : List Node, m ≠ [] → (m.set 0 v).getD 0 dflt = v := by
  intro m hm
  rcases m with _ | ⟨a, t⟩
  · exact absurd rfl hm
  · rfl

/-- C5: at each recursive call, after all candidate subtrees are explored,
the chosen node is the candidate with minimum `average_num_guesses` among
the candidates satisfying `depth + min_depth <= NUM_ALLOWED_GUESSES`, with
ties broken toward the earlier position in the block; if no candidate
satisfies the bound, slot 0 is chosen unconditionally; the chosen node is
swapped into slot 0 of the block and that pointer (slot 0) is returned. -/
theorem solve_selection_spec (d : ℕ) (l : List Node) (hl : l ≠ []) :
    chooseIdx d l < l.length ∧
    ((∃ j, j < l.length ∧ withinDepthB d (l.getD j dnode) = true) →
      withinDepthB d (l.getD (chooseIdx d l) dnode) = true ∧
      (∀ j, j < l.length → withinDepthB d (l.getD j dnode) = true →
        average_num_guesses (l.getD (chooseIdx d l) dnode) ≤
          average_num_guesses (l.getD j dnode)) ∧
      (∀ j, j < chooseIdx d l → withinDepthB d (l.getD j dnode) = true →
        average_num_guesses (l.getD (chooseIdx d l) dnode) <
          average_num_guesses (l.getD j dnode))) ∧
    ((∀ j, j < l.length → withinDepthB d (l.getD j dnode) = false) →
      chooseIdx d l = 0) ∧
    (selectAndPlace d l).1 = l.getD (chooseIdx d l) dnode ∧
    (selectAndPlace d l).2.getD 0 dnode = (selectAndPlace d l).1 := by
  have hmemflt : ∀ j, j ∈ (List.range l.length).filter
      (fun i => withinDepthB d (l.getD i dnode)) ↔
      (j < l.length ∧ withinDepthB d (l.getD j dnode) = true) := by
    intro j
    rw [List.mem_filter, List.mem_range]
  have hplace2 : (selectAndPlace d l).2.getD 0 dnode = (selectAndPlace d l).1 := by
    have hne : (l.set (chooseIdx d l) (l.getD 0 dnode)) ≠ [] := by
      intro hc
      have := congrArg List.length hc
      rw [List.length_set] at this
      exact hl (List.length_eq_zero.mp this)
    exact set_zero_getD _ dnode _ hne
  rcases hft : (List.range l.length).filter
      (fun i => withinDepthB d (l.getD i dnode)) with _ | ⟨i, rest⟩
  · have hchoose : chooseIdx d l = 0 := by
      unfold chooseIdx
      rw [hft]
    refine ⟨hchoose ▸ List.length_pos.mpr hl, ?_, fun _ => hchoose, rfl, hplace2⟩
    rintro ⟨j, hj, hw⟩
    exfalso
    have : j ∈ (List.range l.length).filter
        (fun i => withinDepthB d (l.getD i dnode)) := (hmemflt j).mpr ⟨hj, hw⟩
    rw [hft] at this
    exact absurd this (List.not_mem_nil j)
  · have hpw : (i :: rest).Pairwise (· < ·) := by
      rw [← hft]
      exact List.Pairwise.filter _ (List.pairwise_lt_range l.length)
    have hchoose : chooseIdx d l = rest.foldl (fun b j =>
        if average_num_guesses (l.getD j dnode) < average_num_guesses (l.getD b dnode)
        then j else b) i := by
      unfold chooseIdx
      rw [hft]
      show (rest.foldl (fun b j =>
        if navgLT (l.getD j dnode) (l.getD b dnode) then j else b) i) = _
      rw [foldSelect_congr]
    have h := foldMin_spec (fun j => average_num_guesses (l.getD j dnode)) rest i hpw
    have hmem : chooseIdx d l ∈ (i :: rest) := hchoose ▸ h.1
    have hmemf : chooseIdx d l < l.length ∧
        withinDepthB d (l.getD (chooseIdx d l) dnode) = true := by
      rw [← hmemflt]
      rw [hft]
      exact hmem
    refine ⟨hmemf.1, ?_, ?_, rfl, hplace2⟩
    · intro _
      refine ⟨hmemf.2, ?_, ?_⟩
      · intro j hj hw
        have hjf : j ∈ i :: rest := by
          rw [← hft]
          exact (hmemflt j).mpr ⟨hj, hw⟩
        have := h.2.1 j hjf
        rw [← hchoose] at this
        exact this
      · intro j hj hw
        have hjf : j ∈ i :: rest := by
          rw [← hft]
          exact (hmemflt j).mpr ⟨lt_trans hj hmemf.1, hw⟩
        have := h.2.2 j hjf (hchoose ▸ hj)
        rw [← hchoose] at this
        exact this
    · intro hall
      exfalso
      have hi : i ∈ i :: rest := List.mem_cons_self i rest
      rw [← hft] at hi
      have := (hmemflt i).mp hi
      rw [hall i this.1] at this
      exact Bool.false_ne_true this.2

/-- C5 witness: a concrete two-candidate block at depth 0 in which both
candidates fit the depth budget; the theorem applied there gives the chosen
index in range, its depth-budget fitness, and the swap-to-slot-0 facts. -/
theorem solve_selection_spec_witness :
    chooseIdx 0 [⟨0, 3, 1, 2, false, [], []⟩, ⟨1, 2, 1, 2, true, [], []⟩] < 2 ∧
    withinDepthB 0
      ([(⟨0, 3, 1, 2, false, [], []⟩ : Node), ⟨1, 2, 1, 2, true, [], []⟩].getD
        (chooseIdx 0 [⟨0, 3, 1, 2, false, [], []⟩, ⟨1, 2, 1, 2, true, [], []⟩]) dnode)
      = true ∧
    (selectAndPlace 0 [⟨0, 3, 1, 2, false, [], []⟩, ⟨1, 2, 1, 2, true, [], []⟩]).1 =
      [(⟨0, 3, 1, 2, false, [], []⟩ : Node), ⟨1, 2, 1, 2, true, [], []⟩].getD
        (chooseIdx 0 [⟨0, 3, 1, 2, false, [], []⟩, ⟨1, 2, 1, 2, true, [], []⟩]) dnode ∧
    (selectAndPlace 0 [⟨0, 3, 1, 2, false, [], []⟩, ⟨1, 2, 1, 2, true, [], []⟩]).2.getD 0
        dnode =
      (selectAndPlace 0 [⟨0, 3, 1, 2, false, [], []⟩, ⟨1, 2, 1, 2, true, [], []⟩]).1 := by
  have h := solve_selection_spec 0
    [⟨0, 3, 1, 2, false, [], []⟩, ⟨1, 2, 1, 2, true, [], []⟩] (List.cons_ne_nil _ _)
  exact ⟨h.1, (h.2.1 ⟨0, by norm_num, by decide⟩).1, h.2.2.2.1, h.2.2.2.2⟩

/-- The error kinds thrown by `solver::check_guesses_solutions` (all are
`std::runtime_error`s in the source; we distinguish them by their message). -/
inductive CheckError where
  | emptyGuesses : CheckError
  | emptySolutions : CheckError
  | invalidSolution : Word → CheckError
  | solutionNotGuessable : Word → CheckError
  | invalidGuess : Word → CheckError

/-- `solver::check_guesses_solutions`, the validation run by the solver
constructor before any other work: empty-list checks, then for each solution
(in order) a length check followed by a membership check against the guess
set, then a length check for each guess.  `none` means construction
proceeds normally. -/
def check_guesses_solutions (valid_guesses solutions : List Word) : Option CheckError :=
  if valid_guesses = [] then some CheckError.emptyGuesses
  else if solutions = [] then some CheckError.emptySolutions
  else
    match solutions.findSome? (fun s =>
        if s.length ≠ NUM_WORD_LETTERS then some (CheckError.invalidSolution s)
        else if s ∈ valid_guesses then none
        else some (CheckError.solutionNotGuessable s)) with
    | some e => some e
    | none => valid_guesses.findSome? (fun g =>
        if g.length ≠ NUM_WORD_LETTERS then some (CheckError.invalidGuess g) else none)

/-- C6: construction fails (throws) if and only if the guess list is empty,
the solution list is empty, some guess or solution has length different
from `W = 5`, or some solution is not among the valid guesses; equivalently,
validation returns no error exactly when both lists are non-empty, every
word has length 5, and every solution occurs among the guesses. -/
theorem check_guesses_solutions_ok_iff (valid_guesses solutions : List Word) :
    check_guesses_solutions valid_guesses solutions = none ↔
      (valid_guesses ≠ [] ∧ solutions ≠ [] ∧
        (∀ g ∈ valid_guesses, g.length = NUM_WORD_LETTERS) ∧
        (∀ s ∈ solutions, s.length = NUM_WORD_LETTERS) ∧
        (∀ s ∈ solutions, s ∈ valid_guesses)) := by
  unfold check_guesses_solutions
  by_cases hg : valid_guesses = []
  · simp [hg]
  · by_cases hs : solutions = []
    · simp [hg, hs]
    · rw [if_neg hg, if_neg hs]
      rcases hfs : solutions.findSome? (fun s =>
          if s.length ≠ NUM_WORD_LETTERS then some (CheckError.invalidSolution s)
          else if s ∈ valid_guesses then none
          else some (CheckError.solutionNotGuessable s)) with _ | e
      · have hsol := List.findSome?_eq_none.mp hfs
        have hsolLen : ∀ s ∈ solutions, s.length = NUM_WORD_LETTERS ∧ s ∈ valid_guesses := by
          intro s hsmem
          have := hsol s hsmem
          by_cases h1 : s.length = NUM_WORD_LETTERS
          · by_cases h2 : s ∈ valid_guesses
            · exact ⟨h1, h2⟩
            · rw [if_neg (fun hc => hc h1), if_neg h2] at this
              exact absurd this (Option.some_ne_none _)
          · rw [if_pos h1] at this
            exact absurd this (Option.some_ne_none _)
        rw [hfs]
        show valid_guesses.findSome? (fun g =>
            if g.length ≠ NUM_WORD_LETTERS then some (CheckError.invalidGuess g)
            else none) = none ↔ _
        constructor
        · intro hnone
          refine ⟨hg, hs, ?_, fun s hsm => (hsolLen s hsm).1, fun s hsm => (hsolLen s hsm).2⟩
          intro g hgm
          have := List.findSome?_eq_none.mp hnone g hgm
          by_cases h1 : g.length = NUM_WORD_LETTERS
          · exact h1
          · rw [if_pos h1] at this
            exact absurd this (Option.some_ne_none _)
        · intro hall
          rw [List.findSome?_eq_none]
          intro g hgm
          rw [if_neg (fun hc => hc (hall.2.2.1 g hgm))]
      · rw [hfs]
        show some e = none ↔ _
        constructor
        · intro hnone
          exact absurd hnone (Option.some_ne_none _)
        · intro hall
          exfalso
          obtain ⟨s, hsmem, hse⟩ := List.exists_of_findSome?_eq_some hfs
          rw [if_neg (fun hc => hc (hall.2.2.2.1 s hsmem)),
            if_pos (hall.2.2.2.2 s hsmem)] at hse
          exact Option.noConfusion hse

/-- The memoisation map `m_memo`, as an association list with the most
recent insertion first (`m_memo[key] = val` overwrite semantics). -/
abbrev Memo := List (List ℕ × Node)

/-- `solver::lookup_memo`. -/
def lookupMemo (memo : Memo) (key : List ℕ) : Option Node :=
  (memo.find? (fun e => decide (e.1 = key))).map (fun e => e.2)

/-- `solver::mark_solved`: account for a singleton partition, either the
guess itself (all greens: leaf node) or a single remaining solution one
guess away (pushed on `leaves`, one extra guess of depth). -/
def markSolved (lm : ℕ → ℕ → ℕ) (nd : Node) (g s : ℕ) : Node :=
  let nd' := { nd with solved_count := nd.solved_count + 1,
                       total_depth := nd.total_depth + 1 }
  if lm g s = ALL_GREENS_MATCH then
    { nd' with is_leaf := true, min_depth := max nd'.min_depth 1 }
  else
    { nd' with leaves := nd'.leaves ++ [s],
               total_depth := nd'.total_depth + 1,
               min_depth := max nd'.min_depth 2 }

/-- `solver::get_solutions_by_match` read at one match value: the feasible
solutions whose match against the guess equals `m`, in feasible-set order. -/
def solutionsByMatch (lm : ℕ → ℕ → ℕ) (g : ℕ) (F : List ℕ) (m : ℕ) : List ℕ :=
  F.filter (fun s => lm g s = m)

/-- `solver::traverse_matches` together with `solver::traverse_match`,
parameterised by the recursive search `recur` (the source recursion into
`solve(avail_solutions, depth + 1)`).  Iterates over match values in
ascending order, stopping as soon as a `traverse_match` returns false
(depth budget exceeded); threads the memo through the recursive calls and
propagates fuel exhaustion (`none`). -/
def traverseMatchesWith (recur : List ℕ → ℕ → Memo → Option (Node × Memo))
    (lm : ℕ → ℕ → ℕ) (g : ℕ) (F : List ℕ) (depth : ℕ) (memo : Memo) :
    Option (Node × Memo) :=
  let step := fun (st : Option (Node × Bool × Memo)) (m : ℕ) =>
    match st with
    | none => none
    | some (nd, cont, mem) =>
      if cont then
        let avail := solutionsByMatch lm g F m
        if avail.isEmpty then st
        else if avail.length = 1 then
          some (markSolved lm nd g (avail.headD 0), true, mem)
        else
          match recur avail (depth + 1) mem with
          | none => none
          | some (child, mem') =>
            let nd' := { nd with
              children := nd.children ++ [child],
              solved_count := nd.solved_count + child.solved_count,
              total_depth := nd.total_depth + child.solved_count + child.total_depth,
              min_depth := min nd.min_depth (child.min_depth + 1) }
            some (nd', decide (depth + nd'.min_depth ≤ NUM_ALLOWED_GUESSES), mem')
      else st
  ((List.range NUM_MATCH_VALS).foldl step
    (some ({ dnode with guess_index := g }, true, memo))).map
    (fun t => (t.1, t.2.2))

/-- The body of `solver::solve(solution_indexes, depth)` below the memo
check: rank the guesses, explore every candidate (the source may spread the
candidates over worker threads and joins them all before selection; the
sequential order modelled here is the schedule in which every candidate is
explored synchronously in block order), select by minimal average depth
within the depth budget, swap the chosen node into slot 0, memoise and
return it.  The ranker's library sort is instantiated with the conforming
`libPartialSort`; the concrete evaluation below is insensitive to the
choice because its block boundaries fall on a unique minimum average. -/
def solveCore (lm : ℕ → ℕ → ℕ) (G prune : ℕ)
    (recur : List ℕ → ℕ → Memo → Option (Node × Memo))
    (F : List ℕ) (depth : ℕ) (memo : Memo) : Option (Node × Memo) :=
  let bg := get_best_unique_match_guesses libPartialSort lm F prune G
  let explored := bg.foldl (fun acc pr =>
      match acc with
      | none => none
      | some (nodes, mem) =>
        match traverseMatchesWith recur lm pr.2 F depth mem with
        | none => none
        | some (nd, mem') => some (nodes ++ [nd], mem')) (some ([], memo))
  match explored with
  | none => none
  | some (subtrees, mem2) =>
    let chosen := (selectAndPlace depth subtrees).1
    some (chosen, (F, chosen) :: mem2)

/-- The recursive `solver::solve(solution_indexes, depth)`, fuelled: a
memoised node is reused when it fits the current depth budget, otherwise
the computation is redone.  `none` only when the fuel is exhausted; every
terminating execution of the source is reproduced by a large enough fuel. -/
def solveF (lm : ℕ → ℕ → ℕ) (G prune : ℕ) :
    ℕ → List ℕ → ℕ → Memo → Option (Node × Memo)
  | 0, _, _, _ => none
  | fuel + 1, F, depth, memo =>
    match lookupMemo memo F with
    | some c =>
      if depth + c.min_depth ≤ NUM_ALLOWED_GUESSES then some (c, memo)
      else solveCore lm G prune
        (fun F2 d2 m2 => solveF lm G prune fuel F2 d2 m2) F depth memo
    | none => solveCore lm G prune
        (fun F2 d2 m2 => solveF lm G prune fuel F2 d2 m2) F depth memo

/-- `solver::init_match_vals`: the match matrix, row per guess, column per
solution. -/
def initMatchVals (valid_guesses solutions : List Word) : List (List ℕ) :=
  valid_guesses.map (fun g => solutions.map (fun s => (calc_match_val g s).1))

/-- `solver::lookup_match` on a match matrix. -/
def lmOf (mat : List (List ℕ)) (g s : ℕ) : ℕ := (mat.getD g []).getD s 0

/-- `solver::solve(int)` followed by the recursive search from the full
solution set at depth 0 with an empty memo: clamp the prune limit, build
`{0, …, S-1}` and run the fuelled search, returning the root node. -/
def solveTop (valid_guesses solutions : List Word) (pruneLimit fuel : ℕ) :
    Option Node :=
  (solveF (lmOf (initMatchVals valid_guesses solutions)) valid_guesses.length
      (clampPrune pruneLimit valid_guesses.length) fuel
      (List.range solutions.length) 0 []).map (fun r => r.1)

/-- Concrete valid-guess list exhibiting the `min_depth` initialisation bug:
one splitter word and eight solutions in four first-letter groups. -/
def c1Guesses : List Word :=
  [['a', 'b', 'c', 'd', 'z'], ['a', 'f', 'f', 'f', 'f'], ['a', 'g', 'g', 'g', 'g'],
   ['b', 'h', 'h', 'h', 'h'], ['b', 'i', 'i', 'i', 'i'], ['c', 'j', 'j', 'j', 'j'],
   ['c', 'k', 'k', 'k', 'k'], ['d', 'l', 'l', 'l', 'l'], ['d', 'm', 'm', 'm', 'm']]

/-- The solutions of the `min_depth` exhibit: the eight grouped words. -/
def c1Solutions : List Word :=
  [['a', 'f', 'f', 'f', 'f'], ['a', 'g', 'g', 'g', 'g'],
   ['b', 'h', 'h', 'h', 'h'], ['b', 'i', 'i', 'i', 'i'], ['c', 'j', 'j', 'j', 'j'],
   ['c', 'k', 'k', 'k', 'k'], ['d', 'l', 'l', 'l', 'l'], ['d', 'm', 'm', 'm', 'm']]

/-- The match matrix of the exhibit, spelled out (the guess `abcdz`
partitions the eight solutions into four buckets of two; each solution word
matches its group partner with a single green and every other solution all
grey). -/
def c1Matrix : List (List ℕ) :=
  [[2, 2, 3, 3, 9, 9, 27, 27], [242, 2, 0, 0, 0, 0, 0, 0], [2, 242, 0, 0, 0, 0, 0, 0],
   [0, 0, 242, 2, 0, 0, 0, 0], [0, 0, 2, 242, 0, 0, 0, 0], [0, 0, 0, 0, 242, 2, 0, 0],
   [0, 0, 0, 0, 2, 242, 0, 0], [0, 0, 0, 0, 0, 0, 242, 2], [0, 0, 0, 0, 0, 0, 2, 242]]

theorem c1Matrix_eq : initMatchVals c1Guesses c1Solutions = c1Matrix := by decide

/-- C1 (code-bug exhibit): on the concrete lists above with prune limit 1,
the recursive search terminates (every bucket explored is a strict subset,
every candidate is explored synchronously since each block has one
candidate) and the root node returned by `solve(F, 0)` has `min_depth = 0`,
although the nearest solution is two guesses away — `min_depth` is
initialised to 0 and `traverse_match` only ever lowers it with
`min(min_depth, child.min_depth + 1)`, so a node all of whose partitions
are non-singleton keeps `min_depth = 0`, contradicting the claimed
invariant `min_depth ≥ 1`.  (The second half of the claim is not at issue
here: the root is not a leaf and has no leaf entries.) -/
theorem solve_root_min_depth_zero :
    (solveTop c1Guesses c1Solutions 1 3).map
      (fun nd => (nd.min_depth, nd.is_leaf, nd.leaves, nd.solved_count)) =
      some (0, false, [], 8) := by
  unfold solveTop
  rw [c1Matrix_eq]
  decide

end WordleSolver
